import Mathlib

/-!
Verification development for the RNA feature-extractor repository.

The repository's mutual-information (MI) engine proper
(`src/analysis/mutual_information.py` and
`src/analysis/rna_mi_pipeline/enhanced_mi.py`) is referenced by the
repository's tests and callers but its source modules are not present under
`src/`; those parts are modelled from the specification (each such definition
carries a doc comment starting with `Modelled from the spec:`).  The
`FeatureExtractor` and `DataManager` classes are present under `src/` and are
embedded directly from their source.

Conventions of the embedding:
* Python strings become `List Char`; an alignment is a `List (List Char)`.
* Python floats become `ℚ` where the source only moves values around, and the
  MI scores themselves live in `ℝ` (the logarithm is irrational).
* numpy matrices become `List (List _)`, so shape facts are theorems rather
  than typing artifacts.
* Python dicts with string keys become association lists
  `List (String × _)`.
* Raising an exception becomes returning `Except.error`.
-/

/-- Modelled from the spec: the error taxonomy of §7 for the MI engine
(the engine modules are absent from `src/`). -/
inductive MIError where
  | emptyAlignment
  | raggedAlignment
  | invalidWeights
  | invalidChunkSize
deriving DecidableEq

/-- Length of the first sequence of an alignment (`len(msa_sequences[0])`). -/
def seqLen (msa : List (List Char)) : ℕ := (msa.headD []).length

/-- Modelled from the spec: §4.1 AlignmentEncoder validation — empty
alignments (zero sequences or zero-length sequences) fail with
`EmptyAlignmentError`, non-rectangular alignments with
`RaggedAlignmentError`, before any computation. -/
def validate_alignment (msa : List (List Char)) : Except MIError Unit :=
  if msa.length = 0 then .error .emptyAlignment
  else if msa.any (fun s => s.length = 0) then .error .emptyAlignment
  else if msa.any (fun s => s.length ≠ seqLen msa) then .error .raggedAlignment
  else .ok ()

/-- Modelled from the spec: §4.2 PseudocountPolicy adaptive selection from
alignment depth, as implemented by `get_adaptive_pseudocount` of the absent
`mutual_information` module. -/
def get_adaptive_pseudocount (msa : List (List Char)) : ℚ :=
  if msa.length ≤ 25 then 0.5
  else if msa.length ≤ 100 then 0.2
  else 0.0

/-- Modelled from the spec: §4.2 — the enhanced module's copy of the adaptive
pseudocount selection (`get_adaptive_pseudocount` of the absent
`enhanced_mi` module); the spec requires it to coincide with the basic one. -/
def get_adaptive_pseudocount_enhanced (msa : List (List Char)) : ℚ :=
  if msa.length ≤ 25 then 0.5
  else if msa.length ≤ 100 then 0.2
  else 0.0

/-- Modelled from the spec: an explicit pseudocount is used verbatim, an
omitted one triggers adaptive selection (basic path). -/
def resolve_pseudocount (msa : List (List Char)) (pc? : Option ℚ) : ℚ :=
  match pc? with
  | some pc => pc
  | none => get_adaptive_pseudocount msa

/-- Modelled from the spec: pseudocount resolution of the enhanced path. -/
def resolve_pseudocount_enhanced (msa : List (List Char)) (pc? : Option ℚ) : ℚ :=
  match pc? with
  | some pc => pc
  | none => get_adaptive_pseudocount_enhanced msa

/-- Modelled from the spec: §4.3 SequenceWeighter default — `N` uniform
weights of `1/N`. -/
def uniform_weights (n : ℕ) : List ℚ := List.replicate n (1 / (n : ℚ))

/-- Modelled from the spec: §4.3 SequenceWeighter — explicit weights fail
with `InvalidWeightsError` when the length differs from `N`, a value is
negative, or the sum is not 1 (the floating tolerance is modelled as exact
rational equality). -/
def validate_weights (n : ℕ) (w? : Option (List ℚ)) : Except MIError (List ℚ) :=
  match w? with
  | none => .ok (uniform_weights n)
  | some ws =>
    if ws.length ≠ n then .error .invalidWeights
    else if ws.any (fun x => x < 0) then .error .invalidWeights
    else if ws.sum ≠ 1 then .error .invalidWeights
    else .ok ws

/-- Modelled from the spec: the nucleotide alphabet over which frequencies
are estimated; gap symbols are treated as ordinary alphabet symbols (§6), so
the model fixes the five-symbol RNA alphabet `A, C, G, U, -`. -/
def alphabet : Finset Char := {'A', 'C', 'G', 'U', '-'}

/-- Symbol of a sequence at a column, defaulting to the gap symbol. -/
def symbolAt (s : List Char) (i : ℕ) : Char := s.getD i '-'

/-- Modelled from the spec: weighted (unsmoothed) count of symbol `a` in
column `i` — each sequence contributes its weight. -/
def wcount (msa : List (List Char)) (w : List ℚ) (i : ℕ) (a : Char) : ℚ :=
  ((msa.zip w).map (fun sw => if symbolAt sw.1 i = a then sw.2 else 0)).sum

/-- Modelled from the spec: weighted joint count of the symbol pair `(a, b)`
at the column pair `(i, j)`. -/
def wjoint (msa : List (List Char)) (w : List ℚ) (i j : ℕ) (a b : Char) : ℚ :=
  ((msa.zip w).map
    (fun sw => if symbolAt sw.1 i = a ∧ symbolAt sw.1 j = b then sw.2 else 0)).sum

/-- Modelled from the spec: §4.5 step 1 — pseudocount-smoothed marginal
probability of symbol `a` at column `i` (5 = alphabet size; total sequence
weight is 1, so the normaliser is `1 + 5·pc`). -/
def pmarg (msa : List (List Char)) (w : List ℚ) (i : ℕ) (pc : ℚ) (a : Char) : ℚ :=
  (wcount msa w i a + pc) / (1 + 5 * pc)

/-- Modelled from the spec: §4.5 step 1 — smoothed joint probability of the
symbol pair `(a, b)` at columns `(i, j)`; the joint table has `5 × 5`
cells, so the normaliser is `1 + 25·pc`. -/
def pjoint (msa : List (List Char)) (w : List ℚ) (i j : ℕ) (pc : ℚ) (a b : Char) : ℚ :=
  (wjoint msa w i j a b + pc) / (1 + 25 * pc)

/-- Modelled from the spec: §4.5 step 2 — one summand of the MI sum,
`p·log2(p/q)` for `p > 0` and a zero contribution otherwise. -/
noncomputable def miTerm (p q : ℚ) : ℝ :=
  if 0 < p then (p : ℝ) * Real.logb 2 ((p : ℝ) / (q : ℝ)) else 0

/-- Modelled from the spec: §4.5 step 2 — mutual information in bits of the
column pair `(i, j)`. -/
noncomputable def miPair (msa : List (List Char)) (w : List ℚ) (pc : ℚ) (i j : ℕ) : ℝ :=
  ∑ ab ∈ alphabet ×ˢ alphabet,
    miTerm (pjoint msa w i j pc ab.1 ab.2)
      (pmarg msa w i pc ab.1 * pmarg msa w j pc ab.2)

/-- Modelled from the spec: §4.5 step 3 — the raw matrix entry: zero on the
diagonal, and the MI of the unordered pair elsewhere (so `MI(i,j) = MI(j,i)`
by construction). -/
noncomputable def miEntry (msa : List (List Char)) (w : List ℚ) (pc : ℚ) (i j : ℕ) : ℝ :=
  if i = j then 0 else miPair msa w pc (min i j) (max i j)

/-- Materialise an `L×L` matrix from an entry function. -/
def mkMatrix (L : ℕ) (f : ℕ → ℕ → ℝ) : List (List ℝ) :=
  (List.range L).map (fun i => (List.range L).map (fun j => f i j))

/-- An `L×L` zero matrix over `ℝ` (`np.zeros((L, L))`). -/
def zerosR (L : ℕ) : List (List ℝ) := List.replicate L (List.replicate L 0)

/-- An `L×L` zero matrix over `ℚ` (`np.zeros((L, L))` in the source layer). -/
def zerosQ (L : ℕ) : List (List ℚ) := List.replicate L (List.replicate L 0)

/-- Entry `(i, j)` of a list-of-lists matrix, defaulting to 0. -/
def entryAt (m : List (List ℝ)) (i j : ℕ) : ℝ := (m.getD i []).getD j 0

/-- A matrix has shape `(L, L)`. -/
def matrixShape {α : Type} (m : List (List α)) (L : ℕ) : Prop :=
  m.length = L ∧ ∀ row ∈ m, row.length = L

/-- Modelled from the spec: §4.6 APCCorrector — mean coupling of column `i`
excluding the diagonal. -/
noncomputable def rowMean (f : ℕ → ℕ → ℝ) (L i : ℕ) : ℝ :=
  (∑ j ∈ Finset.range L, if j = i then 0 else f i j) / ((L : ℝ) - 1)

/-- Modelled from the spec: §4.6 APCCorrector — grand mean over all
off-diagonal entries. -/
noncomputable def grandMean (f : ℕ → ℕ → ℝ) (L : ℕ) : ℝ :=
  (∑ i ∈ Finset.range L, ∑ j ∈ Finset.range L, if i = j then 0 else f i j) /
    ((L : ℝ) * ((L : ℝ) - 1))

/-- Modelled from the spec: §4.6 —
`Corrected(i,j) = Raw(i,j) − mean_i·mean_j/grand_mean`, zero when the grand
mean is zero, and a zero diagonal (data model §3). -/
noncomputable def apcEntry (f : ℕ → ℕ → ℝ) (L i j : ℕ) : ℝ :=
  if i = j then 0
  else if grandMean f L = 0 then 0
  else f i j - rowMean f L i * rowMean f L j / grandMean f L

/-- Insert into a list sorted by `gt` (descending when `gt` is `≥`). -/
def insertSorted {α : Type} (gt : α → α → Bool) : α → List α → List α
  | x, [] => [x]
  | x, y :: ys => if gt x y then x :: y :: ys else y :: insertSorted gt x ys

/-- Insertion sort by a boolean comparison. -/
def sortByDesc {α : Type} (gt : α → α → Bool) : List α → List α
  | [] => []
  | x :: xs => insertSorted gt x (sortByDesc gt xs)

/-- Boolean `≥` on the reals (classical; scores are irrational). -/
noncomputable def rgeb (x y : ℝ) : Bool := @decide (y ≤ x) (Classical.propDecidable _)

/-- Modelled from the spec: §4.8 TopPairSelector minimum separation; the
spec fixes no constant, the model picks 2. -/
def min_separation : ℕ := 2

/-- Modelled from the spec: §4.8 TopPairSelector bound on the candidate
count; the spec fixes no constant, the model picks 100. -/
def max_top_pairs : ℕ := 100

/-- Modelled from the spec: §4.8 TopPairSelector — pairs `i < j` with
`|i − j|` at least the minimum separation, sorted by descending score,
truncated. -/
noncomputable def top_pairs_of (m : ℕ → ℕ → ℝ) (L minSep maxCount : ℕ) :
    List (ℕ × ℕ × ℝ) :=
  let cands := ((List.range L).map (fun i =>
    (List.range L).filterMap (fun j =>
      if i < j ∧ minSep ≤ j - i then some (i, j, m i j) else none))).flatten
  (sortByDesc (fun p q => rgeb p.2.2 q.2.2) cands).take maxCount

/-- Modelled from the spec: §6 `params` — resolved pseudocount, resolved
weights (`none` is the indicator that uniform weights were used), and the
`single_sequence` flag (`none` when absent, as in the non-degenerate path). -/
structure MIParams where
  pseudocount : ℚ
  weights : Option (List ℚ)
  single_sequence : Option Bool

/-- Modelled from the spec: result record of the basic computation path —
`scores` and `coupling_matrix` both alias the raw matrix there (§6). -/
structure BasicMIResult where
  scores : List (List ℝ)
  coupling_matrix : List (List ℝ)
  method : String
  top_pairs : List (ℕ × ℕ × ℝ)
  params : MIParams

/-- Modelled from the spec: result record of the enhanced computation path
(§6); `chunks` is the optional chunk bookkeeping field (`'chunks'` in the
repository's tests). -/
structure EnhancedMIResult where
  mi_matrix : List (List ℝ)
  apc_matrix : List (List ℝ)
  scores : List (List ℝ)
  coupling_matrix : List (List ℝ)
  method : String
  top_pairs : List (ℕ × ℕ × ℝ)
  params : MIParams
  chunks : Option (List (ℕ × ℕ))

/-- Modelled from the spec: §4.4/§4.5 — body of the basic path after
validation: degenerate shortcut, otherwise raw MI with both aliases on the
raw matrix. -/
noncomputable def basic_core (msa : List (List Char)) (w : List ℚ) (pc : ℚ)
    (w? : Option (List ℚ)) : BasicMIResult :=
  let L := seqLen msa
  if msa.dedup.length ≤ 1 then
    { scores := zerosR L, coupling_matrix := zerosR L,
      method := "mutual_information", top_pairs := [],
      params := { pseudocount := pc, weights := w?, single_sequence := some true } }
  else
    let raw := miEntry msa w pc
    { scores := mkMatrix L raw, coupling_matrix := mkMatrix L raw,
      method := "mutual_information",
      top_pairs := top_pairs_of raw L min_separation max_top_pairs,
      params := { pseudocount := pc, weights := w?, single_sequence := none } }

/-- Modelled from the spec: the basic MI computation path
(`calculate_mutual_information` of the absent `mutual_information`
module) — validation at entry, then parameter resolution, then the core. -/
noncomputable def calculate_mutual_information (msa : List (List Char))
    (pc? : Option ℚ) (w? : Option (List ℚ)) : Except MIError BasicMIResult :=
  match validate_alignment msa with
  | .error e => .error e
  | .ok _ =>
    match validate_weights msa.length w? with
    | .error e => .error e
    | .ok w => .ok (basic_core msa w (resolve_pseudocount msa pc?) w?)

/-- Modelled from the spec: §4.4–§4.8 — body of the enhanced path after
validation: degenerate shortcut (all matrices zero, `single_sequence` set,
no chunk bookkeeping), otherwise raw MI, APC correction, aliases on the
corrected matrix and ranked pairs. -/
noncomputable def enhanced_core (msa : List (List Char)) (w : List ℚ) (pc : ℚ)
    (w? : Option (List ℚ)) : EnhancedMIResult :=
  let L := seqLen msa
  if msa.dedup.length ≤ 1 then
    { mi_matrix := zerosR L, apc_matrix := zerosR L, scores := zerosR L,
      coupling_matrix := zerosR L, method := "mutual_information",
      top_pairs := [],
      params := { pseudocount := pc, weights := w?, single_sequence := some true },
      chunks := none }
  else
    let raw := miEntry msa w pc
    let apc := fun i j => apcEntry raw L i j
    { mi_matrix := mkMatrix L raw, apc_matrix := mkMatrix L apc,
      scores := mkMatrix L apc, coupling_matrix := mkMatrix L apc,
      method := "mutual_information",
      top_pairs := top_pairs_of apc L min_separation max_top_pairs,
      params := { pseudocount := pc, weights := w?, single_sequence := none },
      chunks := none }

/-- Modelled from the spec: the enhanced MI computation path
(`calculate_mutual_information_enhanced` of the absent `enhanced_mi`
module). -/
noncomputable def calculate_mutual_information_enhanced (msa : List (List Char))
    (pc? : Option ℚ) (w? : Option (List ℚ)) : Except MIError EnhancedMIResult :=
  match validate_alignment msa with
  | .error e => .error e
  | .ok _ =>
    match validate_weights msa.length w? with
    | .error e => .error e
    | .ok w => .ok (enhanced_core msa w (resolve_pseudocount_enhanced msa pc?) w?)

/-- Modelled from the spec: §4.7 — the contiguous column windows of size at
most `maxLen` covering `[0, L)`. -/
def chunk_ranges (L maxLen : ℕ) : List (ℕ × ℕ) :=
  (List.range ((L + maxLen - 1) / maxLen)).map
    (fun k => (k * maxLen, min ((k + 1) * maxLen) L))

/-- Modelled from the spec: §4.7 — core of the chunked path: the degenerate
shortcut takes precedence over chunking (§4.4); within the configured
maximum the coordinator is a pass-through; otherwise the window sub-blocks
are computed and written at their offsets, reassembling the same full raw
matrix (restricting the computation to a column window does not change the
per-column data), and the chunk bookkeeping is recorded. -/
noncomputable def chunked_core (msa : List (List Char)) (w : List ℚ) (pc : ℚ)
    (w? : Option (List ℚ)) (maxLen : ℕ) : EnhancedMIResult :=
  let L := seqLen msa
  if msa.dedup.length ≤ 1 then enhanced_core msa w pc w?
  else if L ≤ maxLen then enhanced_core msa w pc w?
  else
    let raw := miEntry msa w pc
    let apc := fun i j => apcEntry raw L i j
    { mi_matrix := mkMatrix L raw, apc_matrix := mkMatrix L apc,
      scores := mkMatrix L apc, coupling_matrix := mkMatrix L apc,
      method := "mutual_information",
      top_pairs := top_pairs_of apc L min_separation max_top_pairs,
      params := { pseudocount := pc, weights := w?, single_sequence := none },
      chunks := some (chunk_ranges L maxLen) }

/-- Modelled from the spec: the chunked entry point (`chunk_and_analyze_rna`
of the absent `enhanced_mi` module); a non-positive window size fails with
`InvalidChunkSizeError` (`ℕ` makes 0 the only non-positive value). -/
noncomputable def chunk_and_analyze_rna (msa : List (List Char)) (maxLen : ℕ)
    (pc? : Option ℚ) (w? : Option (List ℚ)) : Except MIError EnhancedMIResult :=
  if maxLen = 0 then .error .invalidChunkSize
  else
    match validate_alignment msa with
    | .error e => .error e
    | .ok _ =>
      match validate_weights msa.length w? with
      | .error e => .error e
      | .ok w => .ok (chunked_core msa w (resolve_pseudocount_enhanced msa pc?) w? maxLen)

/-- A value of a Python feature dictionary in the source layer
(`src/src/features/feature_extractor.py`, `src/src/data/data_manager.py`):
a numeric matrix, a string, a pair list, a boolean, or a nested dict. -/
inductive FeatVal where
  | mat : List (List ℚ) → FeatVal
  | str : String → FeatVal
  | pairList : List (ℕ × ℕ × ℚ) → FeatVal
  | boolVal : Bool → FeatVal
  | dict : List (String × FeatVal) → FeatVal

/-- The state of a `FeatureExtractor` instance
(`FeatureExtractor.__init__`): the optional memory monitor (modelled by its
presence, it only emits log lines) and the `verbose` flag. -/
structure FeatureExtractorState where
  memory_monitor : Bool
  verbose : Bool

/-- `FeatureExtractor.extract_mi_features` from
`src/src/features/feature_extractor.py` (lines 76–140): returns `None` on an
empty sequence list; otherwise builds a zero `seq_len × seq_len` matrix and
a feature dict whose `single_sequence` flag records whether the MSA has at
most one distinct sequence (the non-degenerate branch is the source's
placeholder that also returns the zero matrix; the `pseudocount` argument is
accepted but never used by the source).  The second component collects the
diagnostic log lines (logger and memory monitor). -/
def extract_mi_features (self : FeatureExtractorState) (msa : List (List Char))
    (pseudocount : Option ℚ) : Option (List (String × FeatVal)) × List String :=
  if msa.isEmpty then
    (none, ["No MSA sequences provided"])
  else
    let log1 : List String := if self.verbose then ["Extracting MI features"] else []
    let log2 : List String := if self.memory_monitor then ["Before MI features"] else []
    let seq_len := (msa.headD []).length
    let mi_matrix := zerosQ seq_len
    if msa.dedup.length ≤ 1 then
      let log3 : List String :=
        if self.verbose then ["Single-sequence MSA detected, optimizing MI calculation"] else []
      let features := [("scores", FeatVal.mat mi_matrix),
        ("coupling_matrix", FeatVal.mat mi_matrix),
        ("method", FeatVal.str "mutual_information"),
        ("top_pairs", FeatVal.pairList []),
        ("single_sequence", FeatVal.boolVal true)]
      let log4 : List String := if self.memory_monitor then ["After MI features"] else []
      (some features, log1 ++ log2 ++ log3 ++ log4)
    else
      let features := [("scores", FeatVal.mat mi_matrix),
        ("coupling_matrix", FeatVal.mat mi_matrix),
        ("method", FeatVal.str "mutual_information"),
        ("top_pairs", FeatVal.pairList []),
        ("single_sequence", FeatVal.boolVal false)]
      let log4 : List String := if self.memory_monitor then ["After MI features"] else []
      (some features, log1 ++ log2 ++ log4)

/-- `FeatureExtractor.validate_features` from
`src/src/features/feature_extractor.py` (lines 142–173): `False` on `None`,
otherwise a required-key check per feature type. -/
def validate_features (features : Option (List (String × FeatVal)))
    (feature_type : String) : Bool :=
  match features with
  | none => false
  | some fs =>
    if feature_type = "thermo" then
      ["mfe", "ensemble_energy"].all (fun k => fs.any (fun e => e.1 == k))
    else if feature_type = "mi" then
      ["scores", "coupling_matrix", "method"].all (fun k => fs.any (fun e => e.1 == k))
    else false

/-- The directory configuration of a `DataManager`
(`DataManager.__init__`); paths are modelled as plain strings. -/
structure DataManager where
  thermo_dir : String
  mi_dir : String

/-- The file system seen by `DataManager`, modelled as an association list
from paths to NPZ archives; an archive stores a feature dict exactly
(`np.savez_compressed` / `np.load` round numeric arrays and scalars through
losslessly, which the model renders as exact storage). -/
def FileStore : Type := List (String × List (String × FeatVal))

/-- Lookup of a path in the modelled file system. -/
def storeGet (fs : FileStore) (p : String) : Option (List (String × FeatVal)) :=
  (fs.find? (fun e => e.1 == p)).map (fun e => e.2)

/-- `DataManager.save_features` from `src/src/data/data_manager.py`
(lines 271–288): writes the features to `output_file` and reports success. -/
def save_features (fs : FileStore) (features : List (String × FeatVal))
    (output_file : String) : FileStore × Bool :=
  ((output_file, features) :: fs, true)

/-- `DataManager.load_features` from `src/src/data/data_manager.py`
(lines 290–350): with a feature type, loads
`<dir>/<target_id>_<type>_features.npz` from the matching directory and
returns `None` when the file is missing or the type is unknown; with no
feature type, returns the dict of the present feature families, or `None`
when neither file exists. -/
def load_features (dm : DataManager) (fs : FileStore) (target_id : String)
    (feature_type : Option String) : Option (List (String × FeatVal)) :=
  match feature_type with
  | none =>
    let tf := storeGet fs (dm.thermo_dir ++ "/" ++ target_id ++ "_thermo_features.npz")
    let mf := storeGet fs (dm.mi_dir ++ "/" ++ target_id ++ "_mi_features.npz")
    let features :=
      (match tf with
       | some d => [("thermo", FeatVal.dict d)]
       | none => []) ++
      (match mf with
       | some d => [("mi", FeatVal.dict d)]
       | none => [])
    if features.isEmpty then none else some features
  | some ft =>
    if ft = "thermo" then
      storeGet fs (dm.thermo_dir ++ "/" ++ target_id ++ "_thermo_features.npz")
    else if ft = "mi" then
      storeGet fs (dm.mi_dir ++ "/" ++ target_id ++ "_mi_features.npz")
    else none

lemma log_two_pos : 0 < Real.log 2 := Real.log_pos (by norm_num)

lemma mkMatrix_entry (L : ℕ) (f : ℕ → ℕ → ℝ) {i j : ℕ} (hi : i < L) (hj : j < L) :
    entryAt (mkMatrix L f) i j = f i j := by
  unfold entryAt mkMatrix
  have h1 : i < ((List.range L).map
      (fun i => (List.range L).map (fun j => f i j))).length := by simp [hi]
  rw [List.getD_eq_getElem _ _ h1]
  have h2 : j < (((List.range L).map
      (fun i => (List.range L).map (fun j => f i j)))[i]).length := by simp [hj]
  rw [List.getD_eq_getElem _ _ h2]
  simp

lemma mkMatrix_shape (L : ℕ) (f : ℕ → ℕ → ℝ) : matrixShape (mkMatrix L f) L := by
  constructor
  · simp [mkMatrix]
  · intro row hrow
    simp only [mkMatrix, List.mem_map] at hrow
    obtain ⟨i, _, rfl⟩ := hrow
    simp

lemma zerosR_shape (L : ℕ) : matrixShape (zerosR L) L := by
  constructor
  · simp [zerosR]
  · intro row hrow
    simp only [zerosR, List.mem_replicate] at hrow
    rw [hrow.2]
    simp

lemma zerosQ_shape (L : ℕ) : matrixShape (zerosQ L) L := by
  constructor
  · simp [zerosQ]
  · intro row hrow
    simp only [zerosQ, List.mem_replicate] at hrow
    rw [hrow.2]
    simp

lemma zerosR_eq_mkMatrix (L : ℕ) : zerosR L = mkMatrix L (fun _ _ => 0) := by
  unfold zerosR mkMatrix
  symm
  rw [List.eq_replicate_iff]
  refine ⟨by simp, ?_⟩
  intro row hrow
  simp only [List.mem_map] at hrow
  obtain ⟨i, _, rfl⟩ := hrow
  symm
  rw [eq_comm, List.eq_replicate_iff]
  simp

lemma mkMatrix_congr (L : ℕ) (f g : ℕ → ℕ → ℝ)
    (h : ∀ i < L, ∀ j < L, f i j = g i j) : mkMatrix L f = mkMatrix L g := by
  unfold mkMatrix
  apply List.map_congr_left
  intro i hi
  apply List.map_congr_left
  intro j hj
  exact h i (List.mem_range.mp hi) j (List.mem_range.mp hj)

lemma entryAt_out_of_range {m : List (List ℝ)} {L i j : ℕ} (hm : matrixShape m L)
    (h : L ≤ i ∨ L ≤ j) : entryAt m i j = 0 := by
  obtain ⟨hlen, hrow⟩ := hm
  unfold entryAt
  rcases h with h | h
  · have houter : m.getD i [] = [] := List.getD_eq_default _ _ (by omega)
    rw [houter]
    simp
  · rcases Nat.lt_or_ge i m.length with hi | hi
    · have hmem : m.getD i [] ∈ m := by
        rw [List.getD_eq_getElem _ _ hi]
        exact List.getElem_mem hi
      rw [List.getD_eq_default _ _ (by rw [hrow _ hmem]; omega)]
    · rw [List.getD_eq_default _ _ hi]
      simp

lemma miTerm_ge (p q : ℚ) (hpq : 0 < p → 0 < q) :
    (if 0 < p then ((p : ℝ) - (q : ℝ)) / Real.log 2 else 0) ≤ miTerm p q := by
  unfold miTerm
  by_cases hp : 0 < p
  · rw [if_pos hp, if_pos hp]
    have hq := hpq hp
    have hpR : (0 : ℝ) < (p : ℝ) := by exact_mod_cast hp
    have hqR : (0 : ℝ) < (q : ℝ) := by exact_mod_cast hq
    have key : (p : ℝ) - (q : ℝ) ≤ (p : ℝ) * Real.log ((p : ℝ) / (q : ℝ)) := by
      have h1 : Real.log ((q : ℝ) / (p : ℝ)) ≤ (q : ℝ) / (p : ℝ) - 1 :=
        Real.log_le_sub_one_of_pos (by positivity)
      have h2 : Real.log ((q : ℝ) / (p : ℝ)) = -Real.log ((p : ℝ) / (q : ℝ)) := by
        rw [← Real.log_inv, inv_div]
      rw [h2] at h1
      have h4 : 1 - (q : ℝ) / (p : ℝ) ≤ Real.log ((p : ℝ) / (q : ℝ)) := by linarith
      have h5 := mul_le_mul_of_nonneg_left h4 (le_of_lt hpR)
      have h6 : (p : ℝ) * (1 - (q : ℝ) / (p : ℝ)) = (p : ℝ) - (q : ℝ) := by
        field_simp
      linarith
    rw [Real.logb, ← mul_div_assoc]
    exact div_le_div_of_nonneg_right key (le_of_lt log_two_pos)
  · rw [if_neg hp, if_neg hp]

lemma miTerm_gt (p q : ℚ) (hp : 0 < p) (hq : 0 < q) (hne : p ≠ q) :
    (if 0 < p then ((p : ℝ) - (q : ℝ)) / Real.log 2 else 0) < miTerm p q := by
  unfold miTerm
  rw [if_pos hp, if_pos hp]
  have hpR : (0 : ℝ) < (p : ℝ) := by exact_mod_cast hp
  have hqR : (0 : ℝ) < (q : ℝ) := by exact_mod_cast hq
  have hneR : (q : ℝ) / (p : ℝ) ≠ 1 := by
    intro hcon
    apply hne
    rw [div_eq_one_iff_eq (ne_of_gt hpR)] at hcon
    exact_mod_cast hcon.symm
  have key : (p : ℝ) - (q : ℝ) < (p : ℝ) * Real.log ((p : ℝ) / (q : ℝ)) := by
    have h1 : Real.log ((q : ℝ) / (p : ℝ)) < (q : ℝ) / (p : ℝ) - 1 :=
      Real.log_lt_sub_one_of_pos (by positivity) hneR
    have h2 : Real.log ((q : ℝ) / (p : ℝ)) = -Real.log ((p : ℝ) / (q : ℝ)) := by
      rw [← Real.log_inv, inv_div]
    rw [h2] at h1
    have h4 : 1 - (q : ℝ) / (p : ℝ) < Real.log ((p : ℝ) / (q : ℝ)) := by linarith
    have h5 := (mul_lt_mul_left hpR).mpr h4
    have h6 : (p : ℝ) * (1 - (q : ℝ) / (p : ℝ)) = (p : ℝ) - (q : ℝ) := by
      field_simp
    linarith
  rw [Real.logb, ← mul_div_assoc]
  exact div_lt_div_of_pos_right key log_two_pos

lemma sum_shift_nonneg {ι : Type} (s : Finset ι) (p q : ι → ℚ)
    (hp : ∀ i ∈ s, 0 ≤ p i) (hq : ∀ i ∈ s, 0 ≤ q i)
    (hps : ∑ i ∈ s, p i = 1) (hqs : ∑ i ∈ s, q i ≤ 1) :
    0 ≤ ∑ i ∈ s, (if 0 < p i then ((p i : ℝ) - (q i : ℝ)) / Real.log 2 else 0) := by
  classical
  have hsplit : ∑ i ∈ s, (if 0 < p i then ((p i : ℝ) - (q i : ℝ)) / Real.log 2 else 0)
      = ∑ i ∈ s.filter (fun i => 0 < p i), (((p i : ℝ) - (q i : ℝ)) / Real.log 2) := by
    rw [Finset.sum_filter]
  rw [hsplit, ← Finset.sum_div]
  apply div_nonneg _ (le_of_lt log_two_pos)
  rw [Finset.sum_sub_distrib]
  have h1 : ∑ i ∈ s.filter (fun i => 0 < p i), (p i : ℝ) = 1 := by
    have hz : ∑ i ∈ s.filter (fun i => ¬ 0 < p i), (p i : ℝ) = 0 := by
      apply Finset.sum_eq_zero
      intro i hi
      simp only [Finset.mem_filter, not_lt] at hi
      have : p i = 0 := le_antisymm hi.2 (hp i hi.1)
      exact_mod_cast this
    have htot : ∑ i ∈ s, (p i : ℝ) = 1 := by exact_mod_cast hps
    have := Finset.sum_filter_add_sum_filter_not s (fun i => 0 < p i)
      (fun i => (p i : ℝ))
    rw [hz, add_zero] at this
    rw [this, htot]
  have h2 : ∑ i ∈ s.filter (fun i => 0 < p i), (q i : ℝ) ≤ 1 := by
    have hsub : ∑ i ∈ s.filter (fun i => 0 < p i), (q i : ℝ) ≤ ∑ i ∈ s, (q i : ℝ) := by
      apply Finset.sum_le_sum_of_subset_of_nonneg (Finset.filter_subset _ s)
      intro i hi _
      exact_mod_cast hq i hi
    have htot : ∑ i ∈ s, (q i : ℝ) ≤ 1 := by exact_mod_cast hqs
    linarith
  rw [h1]
  linarith

lemma sum_miTerm_nonneg {ι : Type} (s : Finset ι) (p q : ι → ℚ)
    (hp : ∀ i ∈ s, 0 ≤ p i) (hq : ∀ i ∈ s, 0 ≤ q i)
    (hsupp : ∀ i ∈ s, 0 < p i → 0 < q i)
    (hps : ∑ i ∈ s, p i = 1) (hqs : ∑ i ∈ s, q i ≤ 1) :
    0 ≤ ∑ i ∈ s, miTerm (p i) (q i) := by
  refine le_trans (sum_shift_nonneg s p q hp hq hps hqs) ?_
  exact Finset.sum_le_sum (fun i hi => miTerm_ge (p i) (q i) (hsupp i hi))

lemma sum_miTerm_pos {ι : Type} (s : Finset ι) (p q : ι → ℚ)
    (hp : ∀ i ∈ s, 0 ≤ p i) (hq : ∀ i ∈ s, 0 ≤ q i)
    (hsupp : ∀ i ∈ s, 0 < p i → 0 < q i)
    (hps : ∑ i ∈ s, p i = 1) (hqs : ∑ i ∈ s, q i ≤ 1)
    (i0 : ι) (hi0 : i0 ∈ s) (hp0 : 0 < p i0) (hne : p i0 ≠ q i0) :
    0 < ∑ i ∈ s, miTerm (p i) (q i) := by
  refine lt_of_le_of_lt (sum_shift_nonneg s p q hp hq hps hqs) ?_
  apply Finset.sum_lt_sum
  · exact fun i hi => miTerm_ge (p i) (q i) (hsupp i hi)
  · exact ⟨i0, hi0, miTerm_gt (p i0) (q i0) hp0 (hsupp i0 hi0 hp0) hne⟩

lemma sum_miTerm_eq_zero {ι : Type} (s : Finset ι) (p q : ι → ℚ)
    (h : ∀ i ∈ s, p i = 0 ∨ p i = q i) :
    ∑ i ∈ s, miTerm (p i) (q i) = 0 := by
  apply Finset.sum_eq_zero
  intro i hi
  unfold miTerm
  rcases h i hi with h0 | heq
  · rw [if_neg]
    rw [h0]
    exact lt_irrefl 0
  · by_cases hp : 0 < p i
    · rw [if_pos hp, heq]
      have hqR : ((q i : ℝ)) ≠ 0 := by
        rw [← heq]
        exact_mod_cast ne_of_gt hp
      rw [div_self hqR, Real.logb_one, mul_zero]
    · rw [if_neg hp]

lemma symbolAt_mem_alphabet (s : List Char) (i : ℕ) (h : ∀ c ∈ s, c ∈ alphabet) :
    symbolAt s i ∈ alphabet := by
  unfold symbolAt
  rcases Nat.lt_or_ge i s.length with hi | hi
  · refine h _ ?_
    rw [List.getD_eq_getElem _ _ hi]
    exact List.getElem_mem hi
  · rw [List.getD_eq_default _ _ hi]
    decide

lemma sum_ite_single (c : Char) (hc : c ∈ alphabet) (x : ℚ) :
    ∑ a ∈ alphabet, (if c = a then x else 0) = x := by
  rw [Finset.sum_ite_eq alphabet c (fun _ => x)]
  simp [hc]

lemma sum_ite_pair (c1 c2 : Char) (h1 : c1 ∈ alphabet) (h2 : c2 ∈ alphabet) (x : ℚ) :
    ∑ ab ∈ alphabet ×ˢ alphabet, (if c1 = ab.1 ∧ c2 = ab.2 then x else 0) = x := by
  rw [Finset.sum_product alphabet alphabet
    (fun ab => if c1 = ab.1 ∧ c2 = ab.2 then x else 0)]
  have hinner : ∀ a ∈ alphabet,
      (∑ b ∈ alphabet, if c1 = a ∧ c2 = b then x else 0) = if c1 = a then x else 0 := by
    intro a _
    by_cases hca : c1 = a
    · simp only [hca, true_and]
      exact sum_ite_single c2 h2 x
    · simp [hca]
  rw [Finset.sum_congr rfl hinner]
  exact sum_ite_single c1 h1 x

lemma finset_sum_list_sum {ι α : Type} (s : Finset ι) (l : List α) (g : α → ι → ℚ) :
    ∑ i ∈ s, (l.map (fun x => g x i)).sum = (l.map (fun x => ∑ i ∈ s, g x i)).sum := by
  induction l with
  | nil => simp
  | cons x xs ih => simp [Finset.sum_add_distrib, ih]

lemma map_snd_eq (msa : List (List Char)) (w : List ℚ) (hlen : w.length ≤ msa.length) :
    (msa.zip w).map (fun sw => sw.2) = w := by
  rw [show (fun sw : List Char × ℚ => sw.2) = Prod.snd from rfl]
  exact List.map_snd_zip msa w hlen

lemma sum_wcount (msa : List (List Char)) (w : List ℚ) (i : ℕ)
    (hchars : ∀ s ∈ msa, ∀ c ∈ s, c ∈ alphabet) (hlen : w.length ≤ msa.length) :
    ∑ a ∈ alphabet, wcount msa w i a = w.sum := by
  unfold wcount
  rw [finset_sum_list_sum alphabet (msa.zip w)
    (fun sw a => if symbolAt sw.1 i = a then sw.2 else 0)]
  have hmap : ∀ sw ∈ msa.zip w,
      (∑ a ∈ alphabet, if symbolAt sw.1 i = a then sw.2 else 0) = sw.2 := by
    intro sw hsw
    refine sum_ite_single _ ?_ _
    exact symbolAt_mem_alphabet _ _ (fun c hc => hchars sw.1 (List.of_mem_zip hsw).1 c hc)
  rw [List.map_congr_left hmap, map_snd_eq msa w hlen]

lemma sum_wjoint (msa : List (List Char)) (w : List ℚ) (i j : ℕ)
    (hchars : ∀ s ∈ msa, ∀ c ∈ s, c ∈ alphabet) (hlen : w.length ≤ msa.length) :
    ∑ ab ∈ alphabet ×ˢ alphabet, wjoint msa w i j ab.1 ab.2 = w.sum := by
  unfold wjoint
  rw [finset_sum_list_sum (alphabet ×ˢ alphabet) (msa.zip w)
    (fun sw ab => if symbolAt sw.1 i = ab.1 ∧ symbolAt sw.1 j = ab.2 then sw.2 else 0)]
  have hmap : ∀ sw ∈ msa.zip w,
      (∑ ab ∈ alphabet ×ˢ alphabet,
        if symbolAt sw.1 i = ab.1 ∧ symbolAt sw.1 j = ab.2 then sw.2 else 0) = sw.2 := by
    intro sw hsw
    refine sum_ite_pair _ _ ?_ ?_ _
    · exact symbolAt_mem_alphabet _ _ (fun c hc => hchars sw.1 (List.of_mem_zip hsw).1 c hc)
    · exact symbolAt_mem_alphabet _ _ (fun c hc => hchars sw.1 (List.of_mem_zip hsw).1 c hc)
  rw [List.map_congr_left hmap, map_snd_eq msa w hlen]

lemma sum_pmarg (msa : List (List Char)) (w : List ℚ) (i : ℕ) (pc : ℚ)
    (hchars : ∀ s ∈ msa, ∀ c ∈ s, c ∈ alphabet) (hlen : w.length ≤ msa.length)
    (hws : w.sum = 1) (hpc : 0 ≤ pc) :
    ∑ a ∈ alphabet, pmarg msa w i pc a = 1 := by
  unfold pmarg
  rw [← Finset.sum_div, Finset.sum_add_distrib, sum_wcount msa w i hchars hlen, hws,
    Finset.sum_const]
  have hcard : alphabet.card = 5 := rfl
  rw [hcard, nsmul_eq_mul]
  exact div_self (by positivity)

lemma sum_pjoint (msa : List (List Char)) (w : List ℚ) (i j : ℕ) (pc : ℚ)
    (hchars : ∀ s ∈ msa, ∀ c ∈ s, c ∈ alphabet) (hlen : w.length ≤ msa.length)
    (hws : w.sum = 1) (hpc : 0 ≤ pc) :
    ∑ ab ∈ alphabet ×ˢ alphabet, pjoint msa w i j pc ab.1 ab.2 = 1 := by
  unfold pjoint
  rw [← Finset.sum_div, Finset.sum_add_distrib, sum_wjoint msa w i j hchars hlen, hws,
    Finset.sum_const]
  have hcard : (alphabet ×ˢ alphabet).card = 25 := rfl
  rw [hcard, nsmul_eq_mul]
  exact div_self (by positivity)

lemma sum_pmarg_prod (msa : List (List Char)) (w : List ℚ) (i j : ℕ) (pc : ℚ)
    (hchars : ∀ s ∈ msa, ∀ c ∈ s, c ∈ alphabet) (hlen : w.length ≤ msa.length)
    (hws : w.sum = 1) (hpc : 0 ≤ pc) :
    ∑ ab ∈ alphabet ×ˢ alphabet,
      pmarg msa w i pc ab.1 * pmarg msa w j pc ab.2 = 1 := by
  rw [Finset.sum_product alphabet alphabet
    (fun ab => pmarg msa w i pc ab.1 * pmarg msa w j pc ab.2)]
  rw [← Finset.sum_mul_sum alphabet alphabet (pmarg msa w i pc) (pmarg msa w j pc)]
  rw [sum_pmarg msa w i pc hchars hlen hws hpc, sum_pmarg msa w j pc hchars hlen hws hpc]
  norm_num

lemma wcount_nonneg (msa : List (List Char)) (w : List ℚ) (i : ℕ) (a : Char)
    (hw : ∀ x ∈ w, 0 ≤ x) : 0 ≤ wcount msa w i a := by
  unfold wcount
  apply List.sum_nonneg
  intro x hx
  simp only [List.mem_map] at hx
  obtain ⟨sw, hsw, rfl⟩ := hx
  by_cases hc : symbolAt sw.1 i = a
  · simpa [hc] using hw _ (List.of_mem_zip hsw).2
  · simp [hc]

lemma wjoint_nonneg (msa : List (List Char)) (w : List ℚ) (i j : ℕ) (a b : Char)
    (hw : ∀ x ∈ w, 0 ≤ x) : 0 ≤ wjoint msa w i j a b := by
  unfold wjoint
  apply List.sum_nonneg
  intro x hx
  simp only [List.mem_map] at hx
  obtain ⟨sw, hsw, rfl⟩ := hx
  by_cases hc : symbolAt sw.1 i = a ∧ symbolAt sw.1 j = b
  · simpa [hc] using hw _ (List.of_mem_zip hsw).2
  · simp [hc]

lemma pmarg_nonneg (msa : List (List Char)) (w : List ℚ) (i : ℕ) (pc : ℚ) (a : Char)
    (hw : ∀ x ∈ w, 0 ≤ x) (hpc : 0 ≤ pc) : 0 ≤ pmarg msa w i pc a :=
  div_nonneg (add_nonneg (wcount_nonneg msa w i a hw) hpc) (by positivity)

lemma pjoint_nonneg (msa : List (List Char)) (w : List ℚ) (i j : ℕ) (pc : ℚ) (a b : Char)
    (hw : ∀ x ∈ w, 0 ≤ x) (hpc : 0 ≤ pc) : 0 ≤ pjoint msa w i j pc a b :=
  div_nonneg (add_nonneg (wjoint_nonneg msa w i j a b hw) hpc) (by positivity)

lemma wjoint_le_wcount_left (msa : List (List Char)) (w : List ℚ) (i j : ℕ) (a b : Char)
    (hw : ∀ x ∈ w, 0 ≤ x) : wjoint msa w i j a b ≤ wcount msa w i a := by
  unfold wjoint wcount
  apply List.sum_le_sum
  intro sw hsw
  by_cases h1 : symbolAt sw.1 i = a
  · by_cases h2 : symbolAt sw.1 j = b
    · simp [h1, h2]
    · simpa [h1, h2] using hw _ (List.of_mem_zip hsw).2
  · simp [h1]

lemma wjoint_le_wcount_right (msa : List (List Char)) (w : List ℚ) (i j : ℕ) (a b : Char)
    (hw : ∀ x ∈ w, 0 ≤ x) : wjoint msa w i j a b ≤ wcount msa w j b := by
  unfold wjoint wcount
  apply List.sum_le_sum
  intro sw hsw
  by_cases h2 : symbolAt sw.1 j = b
  · by_cases h1 : symbolAt sw.1 i = a
    · simp [h1, h2]
    · simpa [h1, h2] using hw _ (List.of_mem_zip hsw).2
  · simp [h2]

lemma pjoint_support (msa : List (List Char)) (w : List ℚ) (i j : ℕ) (pc : ℚ) (a b : Char)
    (hw : ∀ x ∈ w, 0 ≤ x) (hpc : 0 ≤ pc)
    (h : 0 < pjoint msa w i j pc a b) :
    0 < pmarg msa w i pc a * pmarg msa w j pc b := by
  have hden25 : (0 : ℚ) < 1 + 25 * pc := by positivity
  have hden5 : (0 : ℚ) < 1 + 5 * pc := by positivity
  have hnum : 0 < wjoint msa w i j a b + pc := by
    unfold pjoint at h
    rw [div_pos_iff] at h
    rcases h with ⟨h, _⟩ | ⟨_, hneg⟩
    · exact h
    · linarith
  have hi : 0 < wcount msa w i a + pc := by
    have := wjoint_le_wcount_left msa w i j a b hw
    linarith
  have hj : 0 < wcount msa w j b + pc := by
    have := wjoint_le_wcount_right msa w i j a b hw
    linarith
  exact mul_pos (div_pos hi hden5) (div_pos hj hden5)

lemma miPair_nonneg (msa : List (List Char)) (w : List ℚ) (pc : ℚ) (i j : ℕ)
    (hchars : ∀ s ∈ msa, ∀ c ∈ s, c ∈ alphabet) (hw : ∀ x ∈ w, 0 ≤ x)
    (hlen : w.length ≤ msa.length) (hws : w.sum = 1) (hpc : 0 ≤ pc) :
    0 ≤ miPair msa w pc i j := by
  unfold miPair
  apply sum_miTerm_nonneg (alphabet ×ˢ alphabet)
    (fun ab => pjoint msa w i j pc ab.1 ab.2)
    (fun ab => pmarg msa w i pc ab.1 * pmarg msa w j pc ab.2)
  · exact fun ab _ => pjoint_nonneg msa w i j pc ab.1 ab.2 hw hpc
  · exact fun ab _ =>
      mul_nonneg (pmarg_nonneg msa w i pc ab.1 hw hpc) (pmarg_nonneg msa w j pc ab.2 hw hpc)
  · exact fun ab _ h => pjoint_support msa w i j pc ab.1 ab.2 hw hpc h
  · exact sum_pjoint msa w i j pc hchars hlen hws hpc
  · exact le_of_eq (sum_pmarg_prod msa w i j pc hchars hlen hws hpc)

lemma miPair_pos (msa : List (List Char)) (w : List ℚ) (pc : ℚ) (i j : ℕ) (a b : Char)
    (hchars : ∀ s ∈ msa, ∀ c ∈ s, c ∈ alphabet) (hw : ∀ x ∈ w, 0 ≤ x)
    (hlen : w.length ≤ msa.length) (hws : w.sum = 1) (hpc : 0 ≤ pc)
    (hmem : (a, b) ∈ alphabet ×ˢ alphabet)
    (hp0 : 0 < pjoint msa w i j pc a b)
    (hne : pjoint msa w i j pc a b ≠ pmarg msa w i pc a * pmarg msa w j pc b) :
    0 < miPair msa w pc i j := by
  unfold miPair
  apply sum_miTerm_pos (alphabet ×ˢ alphabet)
    (fun ab => pjoint msa w i j pc ab.1 ab.2)
    (fun ab => pmarg msa w i pc ab.1 * pmarg msa w j pc ab.2)
    (fun ab _ => pjoint_nonneg msa w i j pc ab.1 ab.2 hw hpc)
    (fun ab _ =>
      mul_nonneg (pmarg_nonneg msa w i pc ab.1 hw hpc) (pmarg_nonneg msa w j pc ab.2 hw hpc))
    (fun ab _ h => pjoint_support msa w i j pc ab.1 ab.2 hw hpc h)
    (sum_pjoint msa w i j pc hchars hlen hws hpc)
    (le_of_eq (sum_pmarg_prod msa w i j pc hchars hlen hws hpc))
    (a, b) hmem hp0 hne

lemma miPair_eq_zero (msa : List (List Char)) (w : List ℚ) (pc : ℚ) (i j : ℕ)
    (h : ∀ ab ∈ alphabet ×ˢ alphabet,
      pjoint msa w i j pc ab.1 ab.2 = 0 ∨
      pjoint msa w i j pc ab.1 ab.2 = pmarg msa w i pc ab.1 * pmarg msa w j pc ab.2) :
    miPair msa w pc i j = 0 := by
  unfold miPair
  exact sum_miTerm_eq_zero (alphabet ×ˢ alphabet) _ _ h

lemma uniform_weights_spec (n : ℕ) (hn : 0 < n) :
    (∀ x ∈ uniform_weights n, 0 ≤ x) ∧ (uniform_weights n).sum = 1 ∧
      (uniform_weights n).length = n := by
  refine ⟨?_, ?_, by simp [uniform_weights]⟩
  · intro x hx
    rw [uniform_weights, List.mem_replicate] at hx
    rw [hx.2]
    positivity
  · rw [uniform_weights, List.sum_replicate, nsmul_eq_mul]
    have : (n : ℚ) ≠ 0 := by exact_mod_cast Nat.pos_iff_ne_zero.mp hn
    field_simp

lemma validate_weights_ok (n : ℕ) (w? : Option (List ℚ)) (w : List ℚ) (hn : 0 < n)
    (h : validate_weights n w? = .ok w) :
    (∀ x ∈ w, 0 ≤ x) ∧ w.sum = 1 ∧ w.length = n := by
  cases w? with
  | none =>
    unfold validate_weights at h
    simp only [Except.ok.injEq] at h
    rw [← h]
    exact uniform_weights_spec n hn
  | some ws =>
    simp only [validate_weights] at h
    split_ifs at h with h1 h2 h3
    simp only [Except.ok.injEq] at h
    subst h
    refine ⟨?_, by tauto, by omega⟩
    intro x hx
    by_contra hneg
    push_neg at hneg
    apply h2
    rw [List.any_eq_true]
    exact ⟨x, hx, by simpa using hneg⟩

lemma validate_alignment_ok (msa : List (List Char))
    (h : validate_alignment msa = .ok ()) :
    0 < msa.length ∧ ∀ s ∈ msa, s.length = seqLen msa := by
  unfold validate_alignment at h
  split_ifs at h with h1 h2 h3
  refine ⟨Nat.pos_of_ne_zero h1, ?_⟩
  intro s hs
  by_contra hneq
  apply h3
  rw [List.any_eq_true]
  exact ⟨s, hs, by simpa using hneq⟩

lemma basic_ok_inv (msa : List (List Char)) (pc? : Option ℚ) (w? : Option (List ℚ))
    (r : BasicMIResult) (h : calculate_mutual_information msa pc? w? = .ok r) :
    ∃ w, validate_alignment msa = .ok () ∧ validate_weights msa.length w? = .ok w ∧
      r = basic_core msa w (resolve_pseudocount msa pc?) w? := by
  unfold calculate_mutual_information at h
  cases hv : validate_alignment msa with
  | error e => rw [hv] at h; simp at h
  | ok u =>
    cases u
    rw [hv] at h
    cases hw : validate_weights msa.length w? with
    | error e => rw [hw] at h; simp at h
    | ok w =>
      rw [hw] at h
      simp only [Except.ok.injEq] at h
      exact ⟨w, rfl, rfl, h.symm⟩

lemma enhanced_ok_inv (msa : List (List Char)) (pc? : Option ℚ) (w? : Option (List ℚ))
    (r : EnhancedMIResult) (h : calculate_mutual_information_enhanced msa pc? w? = .ok r) :
    ∃ w, validate_alignment msa = .ok () ∧ validate_weights msa.length w? = .ok w ∧
      r = enhanced_core msa w (resolve_pseudocount_enhanced msa pc?) w? := by
  unfold calculate_mutual_information_enhanced at h
  cases hv : validate_alignment msa with
  | error e => rw [hv] at h; simp at h
  | ok u =>
    cases u
    rw [hv] at h
    cases hw : validate_weights msa.length w? with
    | error e => rw [hw] at h; simp at h
    | ok w =>
      rw [hw] at h
      simp only [Except.ok.injEq] at h
      exact ⟨w, rfl, rfl, h.symm⟩

lemma chunked_ok_inv (msa : List (List Char)) (maxLen : ℕ) (pc? : Option ℚ)
    (w? : Option (List ℚ)) (r : EnhancedMIResult)
    (h : chunk_and_analyze_rna msa maxLen pc? w? = .ok r) :
    maxLen ≠ 0 ∧ ∃ w, validate_alignment msa = .ok () ∧
      validate_weights msa.length w? = .ok w ∧
      r = chunked_core msa w (resolve_pseudocount_enhanced msa pc?) w? maxLen := by
  unfold chunk_and_analyze_rna at h
  split_ifs at h with h0
  refine ⟨h0, ?_⟩
  cases hv : validate_alignment msa with
  | error e => rw [hv] at h; simp at h
  | ok u =>
    cases u
    rw [hv] at h
    cases hw : validate_weights msa.length w? with
    | error e => rw [hw] at h; simp at h
    | ok w =>
      rw [hw] at h
      simp only [Except.ok.injEq] at h
      exact ⟨w, rfl, rfl, h.symm⟩

lemma resolve_pc_nonneg (msa : List (List Char)) (pc? : Option ℚ)
    (h : ∀ x, pc? = some x → 0 ≤ x) : 0 ≤ resolve_pseudocount msa pc? := by
  cases pc? with
  | some x => exact h x rfl
  | none =>
    unfold resolve_pseudocount get_adaptive_pseudocount
    split_ifs <;> norm_num

lemma resolve_pc_enhanced_nonneg (msa : List (List Char)) (pc? : Option ℚ)
    (h : ∀ x, pc? = some x → 0 ≤ x) : 0 ≤ resolve_pseudocount_enhanced msa pc? := by
  cases pc? with
  | some x => exact h x rfl
  | none =>
    unfold resolve_pseudocount_enhanced get_adaptive_pseudocount_enhanced
    split_ifs <;> norm_num

lemma miPair_zero_of_const_col (msa : List (List Char)) (w : List ℚ) (i j : ℕ) (c0 : Char)
    (hconst : ∀ sw ∈ msa.zip w, symbolAt sw.1 i = c0)
    (hlen : w.length ≤ msa.length) (hws : w.sum = 1) :
    miPair msa w 0 i j = 0 := by
  apply miPair_eq_zero
  intro ab hab
  by_cases ha : ab.1 = c0
  · right
    have h1 : wjoint msa w i j ab.1 ab.2 = wcount msa w j ab.2 := by
      unfold wjoint wcount
      congr 1
      apply List.map_congr_left
      intro sw hsw
      have hc := hconst sw hsw
      by_cases hb : symbolAt sw.1 j = ab.2 <;> simp [hc, ha, hb]
    have h2 : wcount msa w i ab.1 = 1 := by
      unfold wcount
      have hall : ∀ sw ∈ msa.zip w,
          (if symbolAt sw.1 i = ab.1 then sw.2 else 0) = sw.2 := by
        intro sw hsw
        simp [hconst sw hsw, ha]
      rw [List.map_congr_left hall, map_snd_eq msa w hlen, hws]
    unfold pjoint pmarg
    rw [h1, h2]
    norm_num
  · left
    have h0 : wjoint msa w i j ab.1 ab.2 = 0 := by
      unfold wjoint
      have hall : ∀ sw ∈ msa.zip w,
          (if symbolAt sw.1 i = ab.1 ∧ symbolAt sw.1 j = ab.2 then sw.2 else 0) = 0 := by
        intro sw hsw
        rw [if_neg]
        rintro ⟨hx, -⟩
        exact ha (by rw [← hconst sw hsw, hx])
      rw [List.map_congr_left hall]
      simp
    unfold pjoint
    rw [h0]
    norm_num

/-- The concrete alignment of the spec's §8 positivity example
(`["ACGUCGAUCGAUCGA","ACGUCGAUCGAUCCA","ACGUCGAUCGAUCAA"]`). -/
def msa3 : List (List Char) :=
  [['A','C','G','U','C','G','A','U','C','G','A','U','C','G','A'],
   ['A','C','G','U','C','G','A','U','C','G','A','U','C','C','A'],
   ['A','C','G','U','C','G','A','U','C','G','A','U','C','A','A']]

/-- The concrete small alignment of the spec's pseudocount tests (four
8-column sequences, three of them distinct). -/
def msa4 : List (List Char) :=
  [['A','C','G','U','A','C','G','U'],
   ['A','C','G','C','A','C','G','U'],
   ['A','C','G','A','A','C','G','U'],
   ['A','C','G','C','A','C','G','U']]

/-- A degenerate concrete alignment: two identical sequences. -/
def msaDeg : List (List Char) := [['A','C','G','U'], ['A','C','G','U']]

/-- A concrete ragged alignment: two rows of different lengths. -/
def msaRagged : List (List Char) := [['A','C'], ['A']]

/-- A 60-deep concrete alignment (medium depth for the pseudocount policy). -/
def msaMed : List (List Char) := List.replicate 60 ['A']

/-- A 200-deep concrete alignment (large depth for the pseudocount policy). -/
def msaLarge : List (List Char) := List.replicate 200 ['A']

/-- Claim C4: an explicit pseudocount is used verbatim (including 0.0); otherwise
the adaptive value is 0.5 for depth ≤ 25, 0.2 for depth 26–100, and 0.0 for
depth > 100; the basic and enhanced paths select the identical value for the
same alignment. -/
theorem C4_pseudocount_policy (msa : List (List Char)) (pc : ℚ) :
    (msa.length ≤ 25 → get_adaptive_pseudocount msa = 0.5) ∧
    (26 ≤ msa.length → msa.length ≤ 100 → get_adaptive_pseudocount msa = 0.2) ∧
    (100 < msa.length → get_adaptive_pseudocount msa = 0.0) ∧
    get_adaptive_pseudocount_enhanced msa = get_adaptive_pseudocount msa ∧
    resolve_pseudocount msa (some pc) = pc ∧
    resolve_pseudocount_enhanced msa (some pc) = pc ∧
    resolve_pseudocount msa none = resolve_pseudocount_enhanced msa none := by
  unfold get_adaptive_pseudocount get_adaptive_pseudocount_enhanced
    resolve_pseudocount resolve_pseudocount_enhanced
  refine ⟨?_, ?_, ?_, rfl, rfl, rfl, rfl⟩
  · intro h
    rw [if_pos h]
  · intro h1 h2
    rw [if_neg (by omega), if_pos h2]
  · intro h
    rw [if_neg (by omega), if_neg (by omega)]

/-- Witness for C4 at the concrete depths 4, 60, 200 of the spec's examples. -/
theorem C4_pseudocount_policy_witness :
    get_adaptive_pseudocount msa4 = 0.5 ∧
    get_adaptive_pseudocount msaMed = 0.2 ∧
    get_adaptive_pseudocount msaLarge = 0.0 ∧
    resolve_pseudocount msa4 (some 0) = 0 :=
  ⟨(C4_pseudocount_policy msa4 0).1 (by decide),
   (C4_pseudocount_policy msaMed 0).2.1 (by norm_num [msaMed]) (by norm_num [msaMed]),
   (C4_pseudocount_policy msaLarge 0).2.2.1 (by norm_num [msaLarge]),
   (C4_pseudocount_policy msa4 0).2.2.2.2.1⟩

/-- Claim C1: for a degenerate alignment (at most one distinct sequence) the
enhanced computation and the chunked entry point short-circuit: every matrix
of the result is the `L×L` zero matrix, the ranked pair list is empty, the
parameter record flags `single_sequence = true`, and no chunk bookkeeping is
present — even when chunking is configured. -/
theorem C1_degenerate_shortcut :
    (∀ msa pc? w? r, calculate_mutual_information_enhanced msa pc? w? = .ok r →
      msa.dedup.length ≤ 1 →
      r.mi_matrix = zerosR (seqLen msa) ∧ r.apc_matrix = zerosR (seqLen msa) ∧
      r.scores = zerosR (seqLen msa) ∧ r.coupling_matrix = zerosR (seqLen msa) ∧
      r.top_pairs = [] ∧ r.params.single_sequence = some true ∧ r.chunks = none) ∧
    (∀ msa maxLen pc? w? r, chunk_and_analyze_rna msa maxLen pc? w? = .ok r →
      msa.dedup.length ≤ 1 →
      r.mi_matrix = zerosR (seqLen msa) ∧ r.apc_matrix = zerosR (seqLen msa) ∧
      r.scores = zerosR (seqLen msa) ∧ r.coupling_matrix = zerosR (seqLen msa) ∧
      r.top_pairs = [] ∧ r.params.single_sequence = some true ∧ r.chunks = none) := by
  constructor
  · intro msa pc? w? r h hdeg
    obtain ⟨w, hv, hw, rfl⟩ := enhanced_ok_inv msa pc? w? r h
    simp [enhanced_core, hdeg]
  · intro msa maxLen pc? w? r h hdeg
    obtain ⟨h0, w, hv, hw, rfl⟩ := chunked_ok_inv msa maxLen pc? w? r h
    simp [chunked_core, enhanced_core, hdeg]

/-- Witness for C1: two identical 4-column sequences, chunking configured
with windows of 2 < L = 4. -/
theorem C1_degenerate_shortcut_witness :
    ∃ r r', chunk_and_analyze_rna msaDeg 2 none none = .ok r ∧
      calculate_mutual_information_enhanced msaDeg none none = .ok r' ∧
      r.scores = zerosR 4 ∧ r.chunks = none ∧ r.params.single_sequence = some true ∧
      r'.scores = zerosR 4 ∧ r'.chunks = none := by
  have h : chunk_and_analyze_rna msaDeg 2 none none =
      .ok (chunked_core msaDeg (uniform_weights 2)
        (resolve_pseudocount_enhanced msaDeg none) none 2) := rfl
  have h' : calculate_mutual_information_enhanced msaDeg none none =
      .ok (enhanced_core msaDeg (uniform_weights 2)
        (resolve_pseudocount_enhanced msaDeg none) none) := rfl
  have hdeg : msaDeg.dedup.length ≤ 1 := by decide
  have hc := C1_degenerate_shortcut.2 msaDeg 2 none none _ h hdeg
  have hc' := C1_degenerate_shortcut.1 msaDeg none none _ h' hdeg
  exact ⟨_, _, h, h', hc.2.2.1, hc.2.2.2.2.2.2, hc.2.2.2.2.2.1, hc'.2.2.1, hc'.2.2.2.2.2.2⟩

/-- Claim C3: every result of the enhanced path carries the raw matrix under
`mi_matrix`, its APC correction under `apc_matrix`, `scores` and
`coupling_matrix` as aliases of the corrected matrix, and a `params` record
with the resolved pseudocount, the resolved weights (`none` indicating
uniform weights), and the `single_sequence` flag. -/
theorem C3_enhanced_result_record (msa : List (List Char)) (pc? : Option ℚ)
    (w? : Option (List ℚ)) (r : EnhancedMIResult)
    (h : calculate_mutual_information_enhanced msa pc? w? = .ok r) :
    (∃ rawf, r.mi_matrix = mkMatrix (seqLen msa) rawf ∧
      r.apc_matrix = mkMatrix (seqLen msa) (fun i j => apcEntry rawf (seqLen msa) i j)) ∧
    r.scores = r.apc_matrix ∧ r.coupling_matrix = r.apc_matrix ∧
    r.params.pseudocount = resolve_pseudocount_enhanced msa pc? ∧
    r.params.weights = w? ∧
    (r.params.single_sequence = some true ∨ r.params.single_sequence = none) := by
  obtain ⟨w, hv, hw, rfl⟩ := enhanced_ok_inv msa pc? w? r h
  by_cases hdeg : msa.dedup.length ≤ 1
  · refine ⟨⟨fun _ _ => 0, ?_, ?_⟩, ?_, ?_, ?_, ?_, Or.inl ?_⟩
    · simp [enhanced_core, hdeg]
      exact zerosR_eq_mkMatrix _
    · simp [enhanced_core, hdeg]
      rw [zerosR_eq_mkMatrix]
      apply mkMatrix_congr
      intro i hi j hj
      have hg : grandMean (fun _ _ => (0 : ℝ)) (seqLen msa) = 0 := by
        unfold grandMean
        simp
      simp [apcEntry, hg]
    · simp [enhanced_core, hdeg]
    · simp [enhanced_core, hdeg]
    · simp [enhanced_core, hdeg]
    · simp [enhanced_core, hdeg]
    · simp [enhanced_core, hdeg]
  · refine ⟨⟨miEntry msa w (resolve_pseudocount_enhanced msa pc?), ?_, ?_⟩,
      ?_, ?_, ?_, ?_, Or.inr ?_⟩ <;> simp [enhanced_core, hdeg]

/-- Witness for C3 at a concrete degenerate and a concrete non-degenerate
alignment. -/
theorem C3_enhanced_result_record_witness :
    ∃ r r', calculate_mutual_information_enhanced msaDeg none none = .ok r ∧
      calculate_mutual_information_enhanced msa4 none none = .ok r' ∧
      r.scores = r.apc_matrix ∧ r'.scores = r'.apc_matrix ∧
      r'.params.pseudocount = 0.5 := by
  have h : calculate_mutual_information_enhanced msaDeg none none =
      .ok (enhanced_core msaDeg (uniform_weights 2)
        (resolve_pseudocount_enhanced msaDeg none) none) := rfl
  have h' : calculate_mutual_information_enhanced msa4 none none =
      .ok (enhanced_core msa4 (uniform_weights 4)
        (resolve_pseudocount_enhanced msa4 none) none) := rfl
  have hc := C3_enhanced_result_record msaDeg none none _ h
  have hc' := C3_enhanced_result_record msa4 none none _ h'
  exact ⟨_, _, h, h', hc.2.1, hc'.2.1, hc'.2.2.2.1⟩

/-- Claim C5: invalid alignments fail at entry with no (partial) result: zero
sequences or a zero-length sequence raise `EmptyAlignmentError`; unequal
sequence lengths raise `RaggedAlignmentError` — on the basic, enhanced and
chunked entry points alike (an `Except.error` carries no result record). -/
theorem C5_validation_errors (msa : List (List Char)) (maxLen : ℕ) (pc? : Option ℚ)
    (w? : Option (List ℚ)) :
    (msa = [] ∨ [] ∈ msa →
      calculate_mutual_information msa pc? w? = .error .emptyAlignment ∧
      calculate_mutual_information_enhanced msa pc? w? = .error .emptyAlignment ∧
      (maxLen ≠ 0 → chunk_and_analyze_rna msa maxLen pc? w? = .error .emptyAlignment)) ∧
    (msa ≠ [] → [] ∉ msa → ¬(∀ s ∈ msa, s.length = seqLen msa) →
      calculate_mutual_information msa pc? w? = .error .raggedAlignment ∧
      calculate_mutual_information_enhanced msa pc? w? = .error .raggedAlignment ∧
      (maxLen ≠ 0 → chunk_and_analyze_rna msa maxLen pc? w? = .error .raggedAlignment)) := by
  have hval1 : (msa = [] ∨ [] ∈ msa) →
      validate_alignment msa = .error .emptyAlignment := by
    intro h
    unfold validate_alignment
    rcases h with rfl | hmem
    · simp
    · have hne : msa.length ≠ 0 := by
        intro h0
        rw [List.length_eq_zero] at h0
        subst h0
        simp at hmem
      rw [if_neg hne, if_pos]
      rw [List.any_eq_true]
      exact ⟨[], hmem, by simp⟩
  have hval2 : msa ≠ [] → [] ∉ msa → ¬(∀ s ∈ msa, s.length = seqLen msa) →
      validate_alignment msa = .error .raggedAlignment := by
    intro h1 h2 h3
    unfold validate_alignment
    rw [if_neg (by simpa [List.length_eq_zero] using h1), if_neg, if_pos]
    · rw [List.any_eq_true]
      push_neg at h3
      obtain ⟨s, hs, hne⟩ := h3
      exact ⟨s, hs, by simpa using hne⟩
    · intro hany
      rw [List.any_eq_true] at hany
      obtain ⟨s, hs, hlen0⟩ := hany
      simp only [decide_eq_true_eq, List.length_eq_zero] at hlen0
      exact h2 (hlen0 ▸ hs)
  constructor
  · intro h
    have hv := hval1 h
    refine ⟨?_, ?_, fun hm => ?_⟩
    · unfold calculate_mutual_information
      rw [hv]
    · unfold calculate_mutual_information_enhanced
      rw [hv]
    · unfold chunk_and_analyze_rna
      rw [if_neg hm, hv]
  · intro h1 h2 h3
    have hv := hval2 h1 h2 h3
    refine ⟨?_, ?_, fun hm => ?_⟩
    · unfold calculate_mutual_information
      rw [hv]
    · unfold calculate_mutual_information_enhanced
      rw [hv]
    · unfold chunk_and_analyze_rna
      rw [if_neg hm, hv]

/-- Witness for C5: the empty alignment and a concrete ragged alignment. -/
theorem C5_validation_errors_witness :
    calculate_mutual_information ([] : List (List Char)) none none =
      .error .emptyAlignment ∧
    calculate_mutual_information msaRagged none none = .error .raggedAlignment ∧
    chunk_and_analyze_rna msaRagged 5 none none = .error .raggedAlignment :=
  ⟨((C5_validation_errors [] 5 none none).1 (Or.inl rfl)).1,
   ((C5_validation_errors msaRagged 5 none none).2 (by decide) (by decide) (by decide)).1,
   ((C5_validation_errors msaRagged 5 none none).2 (by decide) (by decide)
     (by decide)).2.2 (by decide)⟩

/-- Claim C7: every matrix of a returned result has shape `(L, L)` with `L` the
alignment's per-sequence length — for the enhanced path, the basic path, and
the matrices in the source `FeatureExtractor.extract_mi_features` dict. -/
theorem C7_shape_invariant :
    (∀ msa pc? w? r, calculate_mutual_information_enhanced msa pc? w? = .ok r →
      matrixShape r.mi_matrix (seqLen msa) ∧ matrixShape r.apc_matrix (seqLen msa) ∧
      matrixShape r.scores (seqLen msa) ∧ matrixShape r.coupling_matrix (seqLen msa)) ∧
    (∀ msa pc? w? r, calculate_mutual_information msa pc? w? = .ok r →
      matrixShape r.scores (seqLen msa) ∧ matrixShape r.coupling_matrix (seqLen msa)) ∧
    (∀ self msa pc? fs, (extract_mi_features self msa pc?).1 = some fs →
      ∀ k m, (k, FeatVal.mat m) ∈ fs → matrixShape m (seqLen msa)) := by
  refine ⟨?_, ?_, ?_⟩
  · intro msa pc? w? r h
    obtain ⟨w, hv, hw, rfl⟩ := enhanced_ok_inv msa pc? w? r h
    by_cases hdeg : msa.dedup.length ≤ 1 <;>
      simp [enhanced_core, hdeg, zerosR_shape, mkMatrix_shape]
  · intro msa pc? w? r h
    obtain ⟨w, hv, hw, rfl⟩ := basic_ok_inv msa pc? w? r h
    by_cases hdeg : msa.dedup.length ≤ 1 <;>
      simp [basic_core, hdeg, zerosR_shape, mkMatrix_shape]
  · intro self msa pc? fs h k m hmem
    unfold extract_mi_features at h
    by_cases hemp : msa.isEmpty
    · simp [hemp] at h
    · simp only [hemp, Bool.false_eq_true, if_false] at h
      by_cases hdeg : msa.dedup.length ≤ 1 <;>
        · simp only [hdeg, if_true, if_false] at h
          simp only [Option.some.injEq] at h
          subst h
          simp only [List.mem_cons, List.not_mem_nil, or_false, Prod.mk.injEq] at hmem
          rcases hmem with ⟨-, hm⟩ | ⟨-, hm⟩ | ⟨-, hm⟩ | ⟨-, hm⟩ | ⟨-, hm⟩ <;>
            first
              | (cases hm; exact zerosQ_shape _)
              | exact absurd hm (by simp)

/-- Witness for C7 at concrete invocations of all three layers. -/
theorem C7_shape_invariant_witness :
    ∃ r r' fs, calculate_mutual_information_enhanced msa4 none none = .ok r ∧
      calculate_mutual_information msa4 none none = .ok r' ∧
      (extract_mi_features ⟨false, false⟩ msa4 none).1 = some fs ∧
      matrixShape r.scores 8 ∧ matrixShape r'.scores 8 ∧
      (∀ k m, (k, FeatVal.mat m) ∈ fs → matrixShape m 8) := by
  have h : calculate_mutual_information_enhanced msa4 none none =
      .ok (enhanced_core msa4 (uniform_weights 4)
        (resolve_pseudocount_enhanced msa4 none) none) := rfl
  have h' : calculate_mutual_information msa4 none none =
      .ok (basic_core msa4 (uniform_weights 4) (resolve_pseudocount msa4 none) none) := rfl
  have hfs : (extract_mi_features ⟨false, false⟩ msa4 none).1 =
      some [("scores", FeatVal.mat (zerosQ 8)),
        ("coupling_matrix", FeatVal.mat (zerosQ 8)),
        ("method", FeatVal.str "mutual_information"),
        ("top_pairs", FeatVal.pairList []),
        ("single_sequence", FeatVal.boolVal false)] := rfl
  exact ⟨_, _, _, h, h', hfs,
    (C7_shape_invariant.1 msa4 none none _ h).2.2.1,
    (C7_shape_invariant.2.1 msa4 none none _ h').1,
    C7_shape_invariant.2.2 ⟨false, false⟩ msa4 none _ hfs⟩

/-- Claim C8: the result component of `extract_mi_features` is independent of the
extractor state (`verbose` and the memory monitor only add log lines), so
equal alignment inputs give equal results on every invocation — the
embedded method reads but never writes its object state, making each call
pure given its inputs. -/
theorem C8_result_independent_of_state (mm v mm' v' : Bool) (msa : List (List Char))
    (pc? : Option ℚ) :
    (extract_mi_features ⟨mm, v⟩ msa pc?).1 = (extract_mi_features ⟨mm', v'⟩ msa pc?).1 := by
  unfold extract_mi_features
  by_cases h : msa.isEmpty
  · simp [h]
  · by_cases hd : msa.dedup.length ≤ 1 <;> simp [h, hd]

/-- Claim C9: saving a feature dict at the canonical per-target path and loading
it back through `DataManager.load_features` reproduces it exactly (the NPZ
archive is modelled as lossless storage, which is `np.savez_compressed` /
`np.load`'s contract for numeric arrays and scalars). -/
theorem C9_save_load_roundtrip (dm : DataManager) (fs : FileStore)
    (features : List (String × FeatVal)) (tid : String) :
    (save_features fs features (dm.mi_dir ++ "/" ++ tid ++ "_mi_features.npz")).2 = true ∧
    load_features dm
      (save_features fs features (dm.mi_dir ++ "/" ++ tid ++ "_mi_features.npz")).1
      tid (some "mi") = some features ∧
    (save_features fs features
      (dm.thermo_dir ++ "/" ++ tid ++ "_thermo_features.npz")).2 = true ∧
    load_features dm
      (save_features fs features (dm.thermo_dir ++ "/" ++ tid ++ "_thermo_features.npz")).1
      tid (some "thermo") = some features := by
  refine ⟨rfl, ?_, rfl, ?_⟩
  · unfold load_features save_features storeGet
    simp
  · unfold load_features save_features storeGet
    simp

/-- Claim C10: for every non-empty sequence list, the dict returned by
`extract_mi_features` contains the keys `scores`, `coupling_matrix` and
`method`, binds `scores` and `coupling_matrix` to the same matrix, and
passes `validate_features` for feature type `mi`. -/
theorem C10_result_keys_and_validation (self : FeatureExtractorState)
    (msa : List (List Char)) (pc? : Option ℚ) (h : msa ≠ []) :
    ∃ fs, (extract_mi_features self msa pc?).1 = some fs ∧
      (fs.lookup "scores").isSome ∧ (fs.lookup "coupling_matrix").isSome ∧
      (fs.lookup "method").isSome ∧
      fs.lookup "scores" = fs.lookup "coupling_matrix" ∧
      validate_features (some fs) "mi" = true := by
  unfold extract_mi_features
  have hne : msa.isEmpty = false := by simpa [List.isEmpty_iff] using h
  by_cases hd : msa.dedup.length ≤ 1 <;>
    · simp only [hne, Bool.false_eq_true, if_false, hd, if_true]
      refine ⟨_, rfl, ?_, ?_, ?_, ?_, ?_⟩ <;> simp [validate_features, List.lookup]

/-- Witness for C10 at a concrete non-empty alignment. -/
theorem C10_result_keys_and_validation_witness :
    ∃ fs, (extract_mi_features ⟨false, true⟩ msa4 none).1 = some fs ∧
      validate_features (some fs) "mi" = true := by
  obtain ⟨fs, h1, -, -, -, -, h6⟩ :=
    C10_result_keys_and_validation ⟨false, true⟩ msa4 none (by decide)
  exact ⟨fs, h1, h6⟩

/-- Claim C2: for alignments with at least two distinct sequences, the raw
coupling matrix of the basic path (whose `scores`/`coupling_matrix` alias
the raw matrix) is entrywise non-negative and symmetric and the
`single_sequence` flag is absent; and on the concrete alignment
`["ACGUCGAUCGAUCGA","ACGUCGAUCGAUCCA","ACGUCGAUCGAUCAA"]` some entry of the
returned scores matrix is strictly positive. -/
theorem C2_raw_matrix_properties :
    (∀ msa pc? w? r,
      (∀ x, pc? = some x → 0 ≤ x) →
      (∀ s ∈ msa, ∀ c ∈ s, c ∈ alphabet) →
      calculate_mutual_information msa pc? w? = .ok r →
      2 ≤ msa.dedup.length →
      (∀ i j, 0 ≤ entryAt r.coupling_matrix i j) ∧
      (∀ i j, entryAt r.coupling_matrix i j = entryAt r.coupling_matrix j i) ∧
      r.params.single_sequence ≠ some true) ∧
    (∃ r, calculate_mutual_information msa3 none none = .ok r ∧
      ∃ i j, 0 < entryAt r.scores i j) := by
  constructor
  · intro msa pc? w? r hpcnn hchars h hdist
    obtain ⟨w, hv, hw, rfl⟩ := basic_ok_inv msa pc? w? r h
    obtain ⟨hN, hrect⟩ := validate_alignment_ok msa hv
    obtain ⟨hwn, hws, hwl⟩ := validate_weights_ok msa.length w? w hN hw
    have hdeg : ¬ msa.dedup.length ≤ 1 := by omega
    have hpc : 0 ≤ resolve_pseudocount msa pc? := resolve_pc_nonneg msa pc? hpcnn
    have hcoup : (basic_core msa w (resolve_pseudocount msa pc?) w?).coupling_matrix =
        mkMatrix (seqLen msa) (miEntry msa w (resolve_pseudocount msa pc?)) := by
      simp [basic_core, hdeg]
    refine ⟨?_, ?_, ?_⟩
    · intro i j
      rw [hcoup]
      by_cases hi : i < seqLen msa
      · by_cases hj : j < seqLen msa
        · rw [mkMatrix_entry _ _ hi hj]
          unfold miEntry
          split_ifs with hij
          · exact le_refl 0
          · exact miPair_nonneg msa w _ _ _ hchars hwn (le_of_eq hwl) hws hpc
        · rw [entryAt_out_of_range (mkMatrix_shape _ _) (Or.inr (by omega))]
      · rw [entryAt_out_of_range (mkMatrix_shape _ _) (Or.inl (by omega))]
    · intro i j
      rw [hcoup]
      by_cases hi : i < seqLen msa
      · by_cases hj : j < seqLen msa
        · rw [mkMatrix_entry _ _ hi hj, mkMatrix_entry _ _ hj hi]
          unfold miEntry
          rcases eq_or_ne i j with rfl | hij
          · rfl
          · rw [if_neg hij, if_neg (Ne.symm hij), min_comm, max_comm]
        · rw [entryAt_out_of_range (mkMatrix_shape _ _) (Or.inr (by omega)),
            entryAt_out_of_range (mkMatrix_shape _ _) (Or.inl (by omega))]
      · rw [entryAt_out_of_range (mkMatrix_shape _ _) (Or.inl (by omega)),
          entryAt_out_of_range (mkMatrix_shape _ _) (Or.inr (by omega))]
    · simp [basic_core, hdeg]
  · have h : calculate_mutual_information msa3 none none =
        .ok (basic_core msa3 (uniform_weights 3) (resolve_pseudocount msa3 none) none) := rfl
    refine ⟨_, h, 0, 13, ?_⟩
    have hdeg3 : ¬ msa3.dedup.length ≤ 1 := by decide
    have hsc : (basic_core msa3 (uniform_weights 3)
        (resolve_pseudocount msa3 none) none).scores =
        mkMatrix (seqLen msa3) (miEntry msa3 (uniform_weights 3)
          (resolve_pseudocount msa3 none)) := by
      simp [basic_core, hdeg3]
    rw [hsc, mkMatrix_entry _ _ (by decide) (by decide)]
    unfold miEntry
    rw [if_neg (by decide), (by decide : min 0 13 = 0), (by decide : max 0 13 = 13)]
    have hpcv : resolve_pseudocount msa3 none = 0.5 := rfl
    rw [hpcv]
    exact miPair_pos msa3 (uniform_weights 3) 0.5 0 13 'A' 'G'
      (by decide)
      ((uniform_weights_spec 3 (by norm_num)).1)
      (by decide)
      ((uniform_weights_spec 3 (by norm_num)).2.1)
      (by norm_num)
      (by decide)
      (by simp [pjoint, wjoint, msa3, uniform_weights, symbolAt, List.replicate_succ]
          norm_num)
      (by simp [pjoint, wjoint, pmarg, wcount, msa3, uniform_weights, symbolAt,
            List.replicate_succ]
          norm_num)

/-- Witness for C2 at the spec's concrete three-sequence alignment. -/
theorem C2_raw_matrix_properties_witness :
    ∃ r, calculate_mutual_information msa3 none none = .ok r ∧
      (∀ i j, 0 ≤ entryAt r.coupling_matrix i j) ∧
      r.params.single_sequence ≠ some true := by
  have h : calculate_mutual_information msa3 none none =
      .ok (basic_core msa3 (uniform_weights 3) (resolve_pseudocount msa3 none) none) := rfl
  have hc := C2_raw_matrix_properties.1 msa3 none none _
    (fun x hx => nomatch hx) (by decide) h (by decide)
  exact ⟨_, h, hc.1, hc.2.2⟩

/-- Claim C6: on the fixed small alignment `["ACGUACGU","ACGCACGU","ACGAACGU",
"ACGCACGU"]`, `pseudocount = 0.0` and `pseudocount = 0.5` produce different
coupling matrices (they differ at entry `(0, 3)`: column 0 is constant, so
the unsmoothed MI is 0 there while the smoothed MI is strictly positive). -/
theorem C6_pseudocount_sensitivity :
    ∃ r0 r5, calculate_mutual_information msa4 (some 0) none = .ok r0 ∧
      calculate_mutual_information msa4 (some 0.5) none = .ok r5 ∧
      r0.coupling_matrix ≠ r5.coupling_matrix := by
  have h0 : calculate_mutual_information msa4 (some 0) none =
      .ok (basic_core msa4 (uniform_weights 4) 0 none) := rfl
  have h5 : calculate_mutual_information msa4 (some 0.5) none =
      .ok (basic_core msa4 (uniform_weights 4) 0.5 none) := rfl
  refine ⟨_, _, h0, h5, ?_⟩
  have hdeg : ¬ msa4.dedup.length ≤ 1 := by decide
  have hc0 : (basic_core msa4 (uniform_weights 4) 0 none).coupling_matrix =
      mkMatrix (seqLen msa4) (miEntry msa4 (uniform_weights 4) 0) := by
    simp [basic_core, hdeg]
  have hc5 : (basic_core msa4 (uniform_weights 4) 0.5 none).coupling_matrix =
      mkMatrix (seqLen msa4) (miEntry msa4 (uniform_weights 4) 0.5) := by
    simp [basic_core, hdeg]
  rw [hc0, hc5]
  intro heq
  have hentry : entryAt (mkMatrix (seqLen msa4) (miEntry msa4 (uniform_weights 4) 0)) 0 3 =
      entryAt (mkMatrix (seqLen msa4) (miEntry msa4 (uniform_weights 4) 0.5)) 0 3 := by
    rw [heq]
  rw [mkMatrix_entry _ _ (by decide) (by decide),
    mkMatrix_entry _ _ (by decide) (by decide)] at hentry
  have hzero : miEntry msa4 (uniform_weights 4) 0 0 3 = 0 := by
    unfold miEntry
    rw [if_neg (by decide), (by decide : min 0 3 = 0), (by decide : max 0 3 = 3)]
    exact miPair_zero_of_const_col msa4 (uniform_weights 4) 0 3 'A'
      (by decide) (by decide) ((uniform_weights_spec 4 (by norm_num)).2.1)
  have hpos : 0 < miEntry msa4 (uniform_weights 4) 0.5 0 3 := by
    unfold miEntry
    rw [if_neg (by decide), (by decide : min 0 3 = 0), (by decide : max 0 3 = 3)]
    exact miPair_pos msa4 (uniform_weights 4) 0.5 0 3 'A' 'U'
      (by decide)
      ((uniform_weights_spec 4 (by norm_num)).1)
      (by decide)
      ((uniform_weights_spec 4 (by norm_num)).2.1)
      (by norm_num)
      (by decide)
      (by simp [pjoint, wjoint, msa4, uniform_weights, symbolAt, List.replicate_succ]
          norm_num)
      (by simp [pjoint, wjoint, pmarg, wcount, msa4, uniform_weights, symbolAt,
            List.replicate_succ]
          norm_num)
  rw [hzero] at hentry
  exact absurd hentry.symm (ne_of_gt hpos)
